import Mathlib

/-!
Verification of the font-chain resolution module (`lv_misc/lv_font.c`).

The module resolves a Unicode code point against a chain of font tables
(`lv_font_t` linked by `next_page`), each table using either a continuous
(direct offset) or sparse (binary search) lookup strategy, and exposes
chain-level queries (`lv_font_get_bitmap`, `lv_font_get_width`,
`lv_font_get_real_width`, `lv_font_is_monospace`, `lv_font_get_bpp`)
plus chain mutation (`lv_font_add`, `lv_font_remove`).

Modelling conventions:
* Machine integers are modelled as `Nat`/`Int`; the `uint32_t` subtraction in
  `lv_font_codeCompare` and the `int16_t` to `uint8_t` conversions in the
  chain-level width queries are modelled with explicit `% 2^w` reductions.
* C pointers into the glyph bitmap buffer are modelled as addresses
  (`glyph_bitmap` is the buffer base address, a returned bitmap pointer is
  `base + glyph_index`); the null pointer result is `Option.none`.
* An acyclic NULL-terminated `next_page` chain is modelled as a `List` of
  tables for the read-only queries; the mutating operations `lv_font_add`
  and `lv_font_remove` are modelled over an explicit heap
  (address `Nat` to node) with fuel-indexed traversal, where exhausting
  every fuel models the non-terminating / runaway walk of the C loops.
-/

/-- Per-glyph record of a font table: `{w_px, glyph_index}`.
The C header (`lv_font.h`, outside the analysed source) declares `w_px` as
`uint8_t` and `glyph_index` as `uint32_t`; fields are modelled as `Nat`. -/
structure glyph_dsc_t where
  w_px : Nat
  glyph_index : Nat
  deriving DecidableEq

/-- The two lookup strategies the `get_bitmap`/`get_width` function
pointers of a table can be bound to (spec section 2: "polymorphic over the capability
set {continuous lookup, sparse lookup}"). -/
inductive FontLayout where
  | continuous
  | sparse
  deriving DecidableEq

/-- One font table (`lv_font_t` minus its `next_page` link, which is part of
the chain/heap representation).  `glyph_bitmap` is the base address of the
bitmap byte buffer. -/
structure lv_font_t where
  unicode_first : Nat
  unicode_last : Nat
  glyph_bitmap : Nat
  glyph_dsc : List glyph_dsc_t
  unicode_list : List Nat
  glyph_cnt : Nat
  bpp : Nat
  monospace : Nat
  layout : FontLayout
  deriving DecidableEq

/-! ## The code-point comparator and binary search -/

/-- Reinterpret the low 32 bits of a natural number as a signed `int32_t`
value, as the C conversion from `uint32_t` to `int32_t` does. -/
def int32OfBits (n : Nat) : Int :=
  if n % 4294967296 < 2147483648 then ((n % 4294967296 : Nat) : Int)
  else ((n % 4294967296 : Nat) : Int) - 4294967296

/-- Model of `lv_font_codeCompare` from `lv_font.c`:
`return (*(uint32_t*) pRef) - (*(uint32_t*) pElement);`.
The subtraction is performed on `uint32_t` (wrapping), and the result is
converted to the `int32_t` return type. -/
def lv_font_codeCompare (ref element : Nat) : Int :=
  int32OfBits (ref % 4294967296 + (4294967296 - element % 4294967296))

/-- Modelled from the spec: `lv_bsearch` (a generic utility declared outside
the analysed source file) — "Binary search `unicode_list` for the exact code
point using a three-way comparator".  Classic halving search on the index
interval `[lo, hi)`; the fuel argument bounds the number of halving steps and
is initialised to the element count, which always suffices. -/
def bsearchAux (key : Nat) (arr : List Nat) (cmp : Nat → Nat → Int) :
    Nat → Nat → Nat → Option Nat
  | 0, _, _ => none
  | fuel + 1, lo, hi =>
    if lo < hi then
      let mid := (lo + hi) / 2
      let c := cmp key (arr.getD mid 0)
      if c = 0 then some mid
      else if c < 0 then bsearchAux key arr cmp fuel lo mid
      else bsearchAux key arr cmp fuel (mid + 1) hi
    else none

/-- Modelled from the spec: `lv_bsearch` searching `n` elements of `arr` for
`key` with comparator `cmp`; returns the index of a matching element
(the C function returns a pointer to it) or `none`. -/
def lv_bsearch (key : Nat) (arr : List Nat) (n : Nat) (cmp : Nat → Nat → Int) :
    Option Nat :=
  bsearchAux key arr cmp n 0 n

/-! ## Table-level lookup strategies -/

/-- Model of `lv_font_get_bitmap_continuous` from `lv_font.c`: range check, then
direct offset indexing; result is the address `glyph_bitmap + glyph_index`. -/
def lv_font_get_bitmap_continuous (font : lv_font_t) (unicode_letter : Nat) :
    Option Nat :=
  if unicode_letter < font.unicode_first ∨ font.unicode_last < unicode_letter then
    none
  else
    some (font.glyph_bitmap +
      (font.glyph_dsc.getD (unicode_letter - font.unicode_first) ⟨0, 0⟩).glyph_index)

/-- Model of `lv_font_get_bitmap_sparse` from `lv_font.c`: range check, then binary
search of `unicode_list` over `glyph_cnt` entries with `lv_font_codeCompare`;
on a hit the matched index is reused into `glyph_dsc`. -/
def lv_font_get_bitmap_sparse (font : lv_font_t) (unicode_letter : Nat) :
    Option Nat :=
  if unicode_letter < font.unicode_first ∨ font.unicode_last < unicode_letter then
    none
  else
    match lv_bsearch unicode_letter font.unicode_list font.glyph_cnt
        lv_font_codeCompare with
    | some idx =>
        some (font.glyph_bitmap + (font.glyph_dsc.getD idx ⟨0, 0⟩).glyph_index)
    | none => none

/-- Model of `lv_font_get_width_continuous` from `lv_font.c`: `-1` outside the range,
else the per-glyph `w_px` at the direct offset. -/
def lv_font_get_width_continuous (font : lv_font_t) (unicode_letter : Nat) :
    Int :=
  if unicode_letter < font.unicode_first ∨ font.unicode_last < unicode_letter then
    -1
  else
    ((font.glyph_dsc.getD (unicode_letter - font.unicode_first) ⟨0, 0⟩).w_px : Int)

/-- Model of `lv_font_get_width_sparse` from `lv_font.c`: `-1` outside the range, else
binary search; on a hit the matched index selects `w_px` from `glyph_dsc`. -/
def lv_font_get_width_sparse (font : lv_font_t) (unicode_letter : Nat) : Int :=
  if unicode_letter < font.unicode_first ∨ font.unicode_last < unicode_letter then
    -1
  else
    match lv_bsearch unicode_letter font.unicode_list font.glyph_cnt
        lv_font_codeCompare with
    | some idx => ((font.glyph_dsc.getD idx ⟨0, 0⟩).w_px : Int)
    | none => -1

/-- The per-table `font->get_bitmap(font, letter)` call: dispatch on the
strategy the function pointer of the table is bound to. -/
def tableGetBitmap (font : lv_font_t) (letter : Nat) : Option Nat :=
  match font.layout with
  | .continuous => lv_font_get_bitmap_continuous font letter
  | .sparse => lv_font_get_bitmap_sparse font letter

/-- The per-table `font->get_width(font, letter)` call: dispatch on the
strategy the function pointer of the table is bound to. -/
def tableGetWidth (font : lv_font_t) (letter : Nat) : Int :=
  match font.layout with
  | .continuous => lv_font_get_width_continuous font letter
  | .sparse => lv_font_get_width_sparse font letter

/-! ## Chain-level queries

The read-only queries walk the NULL-terminated `next_page` chain, modelled as
a `List lv_font_t` (empty list = NULL head). -/

/-- Model of `lv_font_get_bitmap` from `lv_font.c`: walk the chain, return the first
non-null per-table bitmap; NULL after exhaustion. -/
def lv_font_get_bitmap : List lv_font_t → Nat → Option Nat
  | [], _ => none
  | f :: rest, letter =>
    match tableGetBitmap f letter with
    | some bitmap => some bitmap
    | none => lv_font_get_bitmap rest letter

/-- Model of `lv_font_get_width` from `lv_font.c`: walk the chain; on the first table
whose width lookup is `≥ 0`, replace the width by the `monospace` of the table
value when that is nonzero (the local copy `uint8_t m = font_i->monospace`),
and return it through the `uint8_t` return type (`% 256`); `0` after
exhaustion. -/
def lv_font_get_width : List lv_font_t → Nat → Nat
  | [], _ => 0
  | f :: rest, letter =>
    let w := tableGetWidth f letter
    if 0 ≤ w then
      (if f.monospace % 256 ≠ 0 then f.monospace % 256 else w.toNat) % 256
    else lv_font_get_width rest letter

/-- Model of `lv_font_get_real_width` from `lv_font.c`: like `lv_font_get_width` but
without the monospace override; `0` after exhaustion. -/
def lv_font_get_real_width : List lv_font_t → Nat → Nat
  | [], _ => 0
  | f :: rest, letter =>
    let w := tableGetWidth f letter
    if 0 ≤ w then w.toNat % 256
    else lv_font_get_real_width rest letter

/-- Model of `lv_font_is_monospace` from `lv_font.c`: walk to the first table whose
width lookup is `≥ 0` and report whether its `monospace` field is nonzero;
`false` (the literal `0` in the C source) after exhaustion. -/
def lv_font_is_monospace : List lv_font_t → Nat → Bool
  | [], _ => false
  | f :: rest, letter =>
    if 0 ≤ tableGetWidth f letter then decide (f.monospace ≠ 0)
    else lv_font_is_monospace rest letter

/-- Model of `lv_font_get_bpp` from `lv_font.c`: walk to the first table whose
inclusive `[unicode_first, unicode_last]` range contains the letter and
return its `bpp`; `0` after exhaustion. -/
def lv_font_get_bpp : List lv_font_t → Nat → Nat
  | [], _ => 0
  | f :: rest, letter =>
    if f.unicode_first ≤ letter ∧ letter ≤ f.unicode_last then f.bpp
    else lv_font_get_bpp rest letter

/-- Boolean range-containment test `unicode_first ≤ letter ≤ unicode_last`,
used to characterise `lv_font_get_bpp` as a `List.find?`. -/
def inRangeB (letter : Nat) (f : lv_font_t) : Bool :=
  decide (f.unicode_first ≤ letter) && decide (letter ≤ f.unicode_last)

/-! ## Heap model for the chain-mutating operations

`lv_font_add` and `lv_font_remove` mutate the `next_page` pointer of a node
found by walking the chain, so they are modelled over an explicit heap:
addresses are `Nat`, each address holds a node (table data plus its
`next_page` link, `none` being the C NULL).  The C `while` loops have no
built-in bound, so the walks take a fuel argument; a walk that fails for
every fuel models the unbounded (non-terminating) traversal of the C code. -/

/-- A heap cell: one `lv_font_t` node, i.e. the table data together with the
mutable `next_page` link (`none` = NULL). -/
structure FontNode where
  data : lv_font_t
  next_page : Option Nat

/-- The heap: every address holds a node. -/
def FontHeap : Type := Nat → FontNode

/-- Write the `next_page` field of the node at address `a`, leaving every
other field and every other node unchanged. -/
def updateNext (h : FontHeap) (a : Nat) (nxt : Option Nat) : FontHeap :=
  fun b => if b = a then { h a with next_page := nxt } else h b

/-- Predicate: `l` is exactly the NULL-terminated `next_page` chain starting at `o` in
heap `h` (the walk both the loops of `lv_font_add`/`lv_font_remove` and the
chain-level queries perform). -/
def isChainB (h : FontHeap) : Option Nat → List Nat → Bool
  | o, [] => o == none
  | o, a :: rest => o == some a && isChainB h (h a).next_page rest

/-- The `while(parent->next_page != NULL) parent = parent->next_page;` walk
of `lv_font_add`: follow `next_page` until a node with a NULL link, spending
one fuel per step; `none` when the fuel runs out (unbounded walk). -/
def findTail (h : FontHeap) : Nat → Nat → Option Nat
  | fuel, p =>
    match (h p).next_page with
    | none => some p
    | some q =>
      match fuel with
      | 0 => none
      | fuel2 + 1 => findTail h fuel2 q

/-- Model of `lv_font_add` from `lv_font.c`: no-op when `parent` is NULL, else walk to
the tail of the chain of `parent` and set its `next_page` to `child`.  Returns the
updated heap, or `none` when the walk never reaches a tail within `fuel`. -/
def lv_font_add (h : FontHeap) (child parent : Option Nat) (fuel : Nat) :
    Option FontHeap :=
  match parent with
  | none => some h
  | some p =>
    match findTail h fuel p with
    | some t => some (updateNext h t child)
    | none => none

/-- The `while(parent->next_page != child) parent = parent->next_page;` walk
of `lv_font_remove`: find the node whose `next_page` equals `some c`,
spending one fuel per step.  Reaching the NULL link (or running out of fuel)
yields `none`: in the C code that walk runs off the end of the chain and
never produces a predecessor. -/
def findPrev (h : FontHeap) (c : Nat) : Nat → Option Nat → Option Nat
  | fuel, o =>
    match o with
    | none => none
    | some p =>
      if (h p).next_page = some c then some p
      else
        match fuel with
        | 0 => none
        | fuel2 + 1 => findPrev h c fuel2 (h p).next_page

/-- Model of `lv_font_remove` from `lv_font.c`: no-op when either argument is NULL,
else walk the chain of `parent` to the node whose `next_page == child` and set
the `next_page` of that node to `child->next_page`.  Returns the updated heap, or
`none` when the predecessor walk never finds such a node within `fuel`. -/
def lv_font_remove (h : FontHeap) (child parent : Option Nat) (fuel : Nat) :
    Option FontHeap :=
  match parent with
  | none => some h
  | some p =>
    match child with
    | none => some h
    | some c =>
      match findPrev h c fuel (some p) with
      | some q => some (updateNext h q (h c).next_page)
      | none => none

/-- Last address of a (nonempty) chain list; `0` for the empty list.  Used to
name the tail node that `lv_font_add` relinks. -/
def lastOf : List Nat → Nat
  | [] => 0
  | [a] => a
  | _ :: b :: t => lastOf (b :: t)

/-! ## Concrete example tables and heaps

These closed instances are used to evaluate the model on the concrete
scenarios named by the specification (overlapping ranges, the monospace 12 /
width 7 example, the `[65, 90, 200]` sparse table, chain append and splice),
and to exhibit the inputs on which some claims fail. -/

/-- Trivial table used as inert node payload in the heap examples. -/
def exFont0 : lv_font_t :=
  { unicode_first := 0, unicode_last := 0, glyph_bitmap := 0, glyph_dsc := [],
    unicode_list := [], glyph_cnt := 0, bpp := 0, monospace := 0,
    layout := .continuous }

/-- Sparse table covering `[60, 100]` but defining only code point 65. -/
def exSparse65 : lv_font_t :=
  { unicode_first := 60, unicode_last := 100, glyph_bitmap := 100,
    glyph_dsc := [⟨5, 0⟩], unicode_list := [65], glyph_cnt := 1, bpp := 2,
    monospace := 0, layout := .sparse }

/-- Continuous table defining exactly code point 70, bpp 4. -/
def exCont70 : lv_font_t :=
  { unicode_first := 70, unicode_last := 70, glyph_bitmap := 200,
    glyph_dsc := [⟨6, 3⟩], unicode_list := [], glyph_cnt := 1, bpp := 4,
    monospace := 0, layout := .continuous }

/-- Second continuous table also defining code point 70 (overlapping range,
different bitmap and bpp), used as a later chain entry. -/
def exCont70b : lv_font_t :=
  { unicode_first := 70, unicode_last := 70, glyph_bitmap := 300,
    glyph_dsc := [⟨9, 7⟩], unicode_list := [], glyph_cnt := 1, bpp := 8,
    monospace := 0, layout := .continuous }

/-- Continuous table with `monospace = 12` and one glyph of raw width 7. -/
def exMono12 : lv_font_t :=
  { unicode_first := 65, unicode_last := 65, glyph_bitmap := 400,
    glyph_dsc := [⟨7, 0⟩], unicode_list := [], glyph_cnt := 1, bpp := 1,
    monospace := 12, layout := .continuous }

/-- Sparse table with `unicode_list = [65, 90, 200]` and matching
descriptors, the example table of the specification. -/
def exSparse3 : lv_font_t :=
  { unicode_first := 65, unicode_last := 200, glyph_bitmap := 1000,
    glyph_dsc := [⟨7, 0⟩, ⟨8, 10⟩, ⟨9, 20⟩], unicode_list := [65, 90, 200],
    glyph_cnt := 3, bpp := 1, monospace := 0, layout := .sparse }

/-- Sparse table whose strictly ascending `unicode_list` spans more than
`2^31`, so the wrapping comparator misdirects the binary search. -/
def exSparseWrap : lv_font_t :=
  { unicode_first := 0, unicode_last := 2147483650, glyph_bitmap := 100,
    glyph_dsc := [⟨7, 0⟩, ⟨8, 10⟩, ⟨9, 20⟩],
    unicode_list := [0, 2147483649, 2147483650],
    glyph_cnt := 3, bpp := 2, monospace := 0, layout := .sparse }

/-- Continuous table over `[10, 12]` with exactly `12 - 10 + 1` descriptors. -/
def exCont3 : lv_font_t :=
  { unicode_first := 10, unicode_last := 12, glyph_bitmap := 500,
    glyph_dsc := [⟨3, 0⟩, ⟨4, 5⟩, ⟨5, 9⟩], unicode_list := [],
    glyph_cnt := 3, bpp := 1, monospace := 0, layout := .continuous }

/-- Heap in which every node is isolated (all `next_page` NULL). -/
def exHeapA : FontHeap := fun _ => ⟨exFont0, none⟩

/-- Heap holding the chain `1 -> 2 -> 3 -> NULL`. -/
def exHeap3 : FontHeap := fun a =>
  if a = 1 then ⟨exFont0, some 2⟩
  else if a = 2 then ⟨exFont0, some 3⟩
  else ⟨exFont0, none⟩

/-! ## Supporting lemmas -/

theorem codeCompare_small (a b : Nat) (ha : a < 2147483648) (hb : b < 2147483648) :
    lv_font_codeCompare a b = (a : Int) - b := by
  unfold lv_font_codeCompare int32OfBits
  have h1 : a % 4294967296 = a := Nat.mod_eq_of_lt (by omega)
  have h2 : b % 4294967296 = b := Nat.mod_eq_of_lt (by omega)
  rw [h1, h2]
  rcases le_or_lt b a with h | h
  · have : (a + (4294967296 - b)) % 4294967296 = a - b := by omega
    rw [this]
    have : a - b < 2147483648 := by omega
    simp only [this, if_pos]
    omega
  · have : (a + (4294967296 - b)) % 4294967296 = a + (4294967296 - b) := by omega
    rw [this]
    have h3 : ¬ (a + (4294967296 - b) < 2147483648) := by omega
    rw [if_neg h3]
    omega

theorem bsearchAux_sound (key : Nat) (l : List Nat) (cmp : Nat → Nat → Int) :
    ∀ fuel lo hi j, bsearchAux key l cmp fuel lo hi = some j →
      lo ≤ j ∧ j < hi ∧ cmp key (l.getD j 0) = 0 := by
  intro fuel
  induction fuel with
  | zero => intro lo hi j h; simp [bsearchAux] at h
  | succ fuel ih =>
    intro lo hi j h
    rw [bsearchAux] at h
    by_cases hlt : lo < hi
    · rw [if_pos hlt] at h
      simp only at h
      by_cases hc0 : cmp key (l.getD ((lo + hi) / 2) 0) = 0
      · rw [if_pos hc0] at h
        obtain rfl : (lo + hi) / 2 = j := by injection h
        exact ⟨by omega, by omega, hc0⟩
      · rw [if_neg hc0] at h
        by_cases hcneg : cmp key (l.getD ((lo + hi) / 2) 0) < 0
        · rw [if_pos hcneg] at h
          have := ih lo ((lo + hi) / 2) j h
          exact ⟨this.1, by omega, this.2.2⟩
        · rw [if_neg hcneg] at h
          have := ih ((lo + hi) / 2 + 1) hi j h
          exact ⟨by omega, this.2.1, this.2.2⟩
    · rw [if_neg hlt] at h; exact absurd h (by simp)

theorem bsearchAux_complete (key : Nat) (l : List Nat) (cmp : Nat → Nat → Int)
    (hcmp : ∀ i, i < l.length → (cmp key (l.getD i 0) = 0 ↔ key = l.getD i 0) ∧
      (cmp key (l.getD i 0) < 0 ↔ key < l.getD i 0))
    (hsorted : ∀ i j, i < j → j < l.length → l.getD i 0 < l.getD j 0) :
    ∀ fuel lo hi i, hi ≤ l.length → hi - lo ≤ fuel → lo ≤ i → i < hi →
      l.getD i 0 = key → (bsearchAux key l cmp fuel lo hi).isSome = true := by
  intro fuel
  induction fuel with
  | zero => intro lo hi i _ hf hlo hhi _; omega
  | succ fuel ih =>
    intro lo hi i hhl hf hlo hhi hkey
    have hlt : lo < hi := by omega
    rw [bsearchAux, if_pos hlt]
    simp only
    set mid := (lo + hi) / 2 with hmid
    have hmlt : mid < hi := by omega
    have hmge : lo ≤ mid := by omega
    have hml : mid < l.length := by omega
    by_cases hc0 : cmp key (l.getD mid 0) = 0
    · rw [if_pos hc0]; rfl
    · rw [if_neg hc0]
      by_cases hcneg : cmp key (l.getD mid 0) < 0
      · rw [if_pos hcneg]
        have hklt : key < l.getD mid 0 := ((hcmp mid hml).2).1 hcneg
        have himid : i < mid := by
          by_contra hge
          push_neg at hge
          rcases Nat.eq_or_lt_of_le hge with heq | hlt2
          · rw [heq] at hklt; omega
          · have := hsorted mid i hlt2 (by omega); omega
        exact ih lo mid i (by omega) (by omega) hlo himid hkey
      · rw [if_neg hcneg]
        have hkne : key ≠ l.getD mid 0 := fun h => hc0 (((hcmp mid hml).1).2 h)
        have hkgt : l.getD mid 0 < key := by
          have := ((hcmp mid hml).2).2
          omega
        have himid : mid < i := by
          by_contra hge
          push_neg at hge
          rcases Nat.eq_or_lt_of_le hge with heq | hlt2
          · rw [heq] at hkey; omega
          · have := hsorted i mid hlt2 hml; omega
        exact ih (mid + 1) hi i hhl (by omega) (by omega) hhi hkey

theorem lv_bsearch_eq_some (key : Nat) (l : List Nat) (cmp : Nat → Nat → Int)
    (hcmp : ∀ i, i < l.length → (cmp key (l.getD i 0) = 0 ↔ key = l.getD i 0) ∧
      (cmp key (l.getD i 0) < 0 ↔ key < l.getD i 0))
    (hsorted : ∀ i j, i < j → j < l.length → l.getD i 0 < l.getD j 0)
    (i : Nat) (hi : i < l.length) (hkey : l.getD i 0 = key) :
    lv_bsearch key l l.length cmp = some i := by
  have hsome := bsearchAux_complete key l cmp hcmp hsorted l.length 0 l.length i
    (le_refl _) (by omega) (by omega) hi hkey
  obtain ⟨j, hj⟩ := Option.isSome_iff_exists.mp hsome
  have hs := bsearchAux_sound key l cmp l.length 0 l.length j hj
  have hkj : key = l.getD j 0 := ((hcmp j (by omega)).1).1 hs.2.2
  have hij : i = j := by
    by_contra hne
    rcases Nat.lt_or_ge i j with hlt | hge
    · have := hsorted i j hlt (by omega); omega
    · have hlt : j < i := by omega
      have := hsorted j i hlt hi; omega
  rw [lv_bsearch, hj, hij]

theorem lv_bsearch_eq_none (key : Nat) (l : List Nat) (cmp : Nat → Nat → Int)
    (hcmp : ∀ i, i < l.length → (cmp key (l.getD i 0) = 0 ↔ key = l.getD i 0) ∧
      (cmp key (l.getD i 0) < 0 ↔ key < l.getD i 0))
    (hmem : key ∉ l) :
    lv_bsearch key l l.length cmp = none := by
  rw [lv_bsearch]
  cases hb : bsearchAux key l cmp l.length 0 l.length with
  | none => rfl
  | some j =>
    have hs := bsearchAux_sound key l cmp l.length 0 l.length j hb
    have hkj : key = l.getD j 0 := ((hcmp j (by omega)).1).1 hs.2.2
    have : l.getD j 0 ∈ l := by
      rw [List.getD_eq_getElem l 0 (by omega : j < l.length)]
      exact List.getElem_mem _
    rw [← hkj] at this
    exact absurd this hmem

theorem tableGetBitmap_none_iff (f : lv_font_t) (letter : Nat) :
    tableGetBitmap f letter = none ↔ tableGetWidth f letter < 0 := by
  rw [tableGetBitmap, tableGetWidth]
  cases f.layout with
  | continuous =>
    rw [lv_font_get_bitmap_continuous, lv_font_get_width_continuous]
    by_cases h : letter < f.unicode_first ∨ f.unicode_last < letter
    · rw [if_pos h, if_pos h]; simp
    · rw [if_neg h, if_neg h]
      simp only [reduceCtorEq, false_iff, not_lt]
      exact Int.natCast_nonneg _
  | sparse =>
    rw [lv_font_get_bitmap_sparse, lv_font_get_width_sparse]
    by_cases h : letter < f.unicode_first ∨ f.unicode_last < letter
    · rw [if_pos h, if_pos h]; simp
    · rw [if_neg h, if_neg h]
      cases lv_bsearch letter f.unicode_list f.glyph_cnt lv_font_codeCompare with
      | none => simp
      | some idx =>
        simp only [reduceCtorEq, false_iff, not_lt]
        exact Int.natCast_nonneg _

theorem getBitmap_append_miss (pre rest : List lv_font_t) (letter : Nat)
    (h : ∀ g ∈ pre, tableGetWidth g letter < 0) :
    lv_font_get_bitmap (pre ++ rest) letter = lv_font_get_bitmap rest letter := by
  induction pre with
  | nil => rfl
  | cons g pre ih =>
    have hg : tableGetBitmap g letter = none :=
      (tableGetBitmap_none_iff g letter).mpr (h g (List.mem_cons_self g pre))
    rw [List.cons_append, lv_font_get_bitmap, hg]
    exact ih (fun g hgm => h g (List.mem_cons_of_mem _ hgm))

theorem getWidth_append_miss (pre rest : List lv_font_t) (letter : Nat)
    (h : ∀ g ∈ pre, tableGetWidth g letter < 0) :
    lv_font_get_width (pre ++ rest) letter = lv_font_get_width rest letter := by
  induction pre with
  | nil => rfl
  | cons g pre ih =>
    have hg : ¬ (0 ≤ tableGetWidth g letter) := by
      have := h g (List.mem_cons_self g pre); omega
    rw [List.cons_append, lv_font_get_width, if_neg hg]
    exact ih (fun g hgm => h g (List.mem_cons_of_mem _ hgm))

theorem getRealWidth_append_miss (pre rest : List lv_font_t) (letter : Nat)
    (h : ∀ g ∈ pre, tableGetWidth g letter < 0) :
    lv_font_get_real_width (pre ++ rest) letter = lv_font_get_real_width rest letter := by
  induction pre with
  | nil => rfl
  | cons g pre ih =>
    have hg : ¬ (0 ≤ tableGetWidth g letter) := by
      have := h g (List.mem_cons_self g pre); omega
    rw [List.cons_append, lv_font_get_real_width, if_neg hg]
    exact ih (fun g hgm => h g (List.mem_cons_of_mem _ hgm))

theorem isMonospace_append_miss (pre rest : List lv_font_t) (letter : Nat)
    (h : ∀ g ∈ pre, tableGetWidth g letter < 0) :
    lv_font_is_monospace (pre ++ rest) letter = lv_font_is_monospace rest letter := by
  induction pre with
  | nil => rfl
  | cons g pre ih =>
    have hg : ¬ (0 ≤ tableGetWidth g letter) := by
      have := h g (List.mem_cons_self g pre); omega
    rw [List.cons_append, lv_font_is_monospace, if_neg hg]
    exact ih (fun g hgm => h g (List.mem_cons_of_mem _ hgm))

theorem isChainB_nil (h : FontHeap) (o : Option Nat) :
    isChainB h o [] = true ↔ o = none := by
  rw [isChainB]; simp

theorem isChainB_cons (h : FontHeap) (o : Option Nat) (a : Nat) (l : List Nat) :
    isChainB h o (a :: l) = true ↔ o = some a ∧ isChainB h (h a).next_page l = true := by
  rw [isChainB]; simp

theorem isChainB_unique (h : FontHeap) :
    ∀ (l l' : List Nat) (o : Option Nat),
      isChainB h o l = true → isChainB h o l' = true → l = l' := by
  intro l
  induction l with
  | nil =>
    intro l' o hl hl'
    rw [isChainB_nil] at hl
    cases l' with
    | nil => rfl
    | cons a t =>
      rw [isChainB_cons] at hl'
      rw [hl] at hl'
      exact absurd hl'.1 (by simp)
  | cons a t ih =>
    intro l' o hl hl'
    rw [isChainB_cons] at hl
    cases l' with
    | nil =>
      rw [isChainB_nil] at hl'
      rw [hl'] at hl
      exact absurd hl.1 (by simp)
    | cons a' t' =>
      rw [isChainB_cons] at hl'
      have ha : a = a' := by
        have h1 := hl.1
        have h2 := hl'.1
        rw [h1] at h2
        injection h2
      subst ha
      rw [ih t' _ hl.2 hl'.2]

theorem isChainB_suffix (h : FontHeap) (x : Nat) (v : List Nat) :
    ∀ (u : List Nat) (o : Option Nat),
      isChainB h o (u ++ x :: v) = true → isChainB h (some x) (x :: v) = true := by
  intro u
  induction u with
  | nil =>
    intro o hl
    rw [List.nil_append] at hl
    rw [isChainB_cons] at hl ⊢
    exact ⟨rfl, hl.2⟩
  | cons a u ih =>
    intro o hl
    rw [List.cons_append, isChainB_cons] at hl
    exact ih _ hl.2

theorem isChainB_nodup (h : FontHeap) :
    ∀ (l : List Nat) (o : Option Nat), isChainB h o l = true → l.Nodup := by
  intro l
  induction l with
  | nil => intro o _; exact List.nodup_nil
  | cons a t ih =>
    intro o hl
    rw [isChainB_cons] at hl
    rw [List.nodup_cons]
    refine ⟨?_, ih _ hl.2⟩
    intro hmem
    obtain ⟨u, v, huv⟩ := List.append_of_mem hmem
    rw [huv] at hl
    have h1 : isChainB h (some a) (a :: v) = true := isChainB_suffix h a v u _ hl.2
    have h2 : isChainB h (some a) (a :: (u ++ a :: v)) = true := by
      rw [isChainB_cons]
      exact ⟨rfl, hl.2⟩
    have := isChainB_unique h _ _ _ h1 h2
    have hlen := congrArg List.length this
    simp only [List.length_cons, List.length_append] at hlen
    omega

theorem updateNext_self (h : FontHeap) (a : Nat) (v : Option Nat) :
    updateNext h a v a = { h a with next_page := v } := by
  rw [updateNext]; simp

theorem updateNext_ne (h : FontHeap) (a : Nat) (v : Option Nat) (b : Nat)
    (hne : b ≠ a) : updateNext h a v b = h b := by
  rw [updateNext, if_neg hne]

theorem isChainB_update_outside (h : FontHeap) (a : Nat) (v : Option Nat) :
    ∀ (l : List Nat) (o : Option Nat), isChainB h o l = true → a ∉ l →
      isChainB (updateNext h a v) o l = true := by
  intro l
  induction l with
  | nil => intro o hl _; rw [isChainB_nil] at hl ⊢; exact hl
  | cons x t ih =>
    intro o hl hnm
    rw [isChainB_cons] at hl ⊢
    have hxa : x ≠ a := fun hxa => hnm (hxa ▸ List.mem_cons_self x t)
    rw [updateNext_ne h a v x hxa]
    exact ⟨hl.1, ih _ hl.2 (fun hm => hnm (List.mem_cons_of_mem _ hm))⟩

theorem findTail_chain (h : FontHeap) (c : Nat) :
    ∀ (l : List Nat) (p : Nat) (fuel : Nat),
      isChainB h (some p) l = true → l.length ≤ fuel + 1 →
      (h c).next_page = none → c ∉ l →
      (h (lastOf l)).next_page = none ∧
      findTail h fuel p = some (lastOf l) ∧
      isChainB (updateNext h (lastOf l) (some c)) (some p) (l ++ [c]) = true := by
  intro l
  induction l with
  | nil =>
    intro p fuel hl _ _ _
    rw [isChainB_nil] at hl
    exact absurd hl (by simp)
  | cons a t ih =>
    intro p fuel hl hfuel hc hnm
    rw [isChainB_cons] at hl
    obtain ⟨hp, hrest⟩ := hl
    have hpa : p = a := by injection hp
    have hca : c ≠ a := fun hca => hnm (hca ▸ List.mem_cons_self a t)
    cases t with
    | nil =>
      rw [isChainB_nil] at hrest
      have hgl : lastOf [a] = a := rfl
      rw [hgl, hpa]
      refine ⟨hrest, ?_, ?_⟩
      · rw [findTail, hrest]
      · rw [List.cons_append, List.nil_append, isChainB_cons, updateNext_self]
        refine ⟨rfl, ?_⟩
        simp only
        rw [isChainB_cons, updateNext_ne h a (some c) c hca]
        exact ⟨rfl, by rw [isChainB_nil, hc]⟩
    | cons b t2 =>
      have hab : (h a).next_page = some b := by
        rw [isChainB_cons] at hrest
        exact hrest.1
      rw [hab] at hrest
      cases fuel with
      | zero => simp at hfuel
      | succ fuel2 =>
        have hres := ih b fuel2 hrest (by simp at hfuel ⊢; omega) hc
          (fun hm => hnm (List.mem_cons_of_mem _ hm))
        have hgl : lastOf (a :: b :: t2) = lastOf (b :: t2) := rfl
        rw [hgl, hpa]
        refine ⟨hres.1, ?_, ?_⟩
        · rw [findTail, hab]
          exact hres.2.1
        · rw [List.cons_append, isChainB_cons]
          have htna : a ≠ lastOf (b :: t2) := by
            intro heq
            rw [← heq] at hres
            rw [hres.1] at hab
            exact absurd hab (by simp)
          rw [updateNext_ne h _ (some c) a htna, hab]
          exact ⟨rfl, hres.2.2⟩

theorem findPrev_none_eq (h : FontHeap) (c fuel : Nat) :
    findPrev h c fuel none = none := by
  rw [findPrev.eq_def]

theorem findPrev_hit (h : FontHeap) (c fuel p : Nat) (hp : (h p).next_page = some c) :
    findPrev h c fuel (some p) = some p := by
  rw [findPrev.eq_def]
  simp only [hp, if_pos]

theorem findPrev_zero (h : FontHeap) (c p : Nat) (hp : (h p).next_page ≠ some c) :
    findPrev h c 0 (some p) = none := by
  rw [findPrev.eq_def]
  simp [hp]

theorem findPrev_step (h : FontHeap) (c fuel p : Nat) (hp : (h p).next_page ≠ some c) :
    findPrev h c (fuel + 1) (some p) = findPrev h c fuel (h p).next_page := by
  rw [findPrev.eq_def]
  simp [hp]

theorem findPrev_chain (h : FontHeap) (a c : Nat) (ys : List Nat) :
    ∀ (xs : List Nat) (o : Option Nat) (fuel : Nat),
      isChainB h o (xs ++ a :: c :: ys) = true →
      (xs ++ a :: c :: ys).Nodup →
      xs.length ≤ fuel →
      findPrev h c fuel o = some a := by
  intro xs
  induction xs with
  | nil =>
    intro o fuel hl _ _
    rw [List.nil_append, isChainB_cons] at hl
    obtain ⟨ho, hrest⟩ := hl
    rw [isChainB_cons] at hrest
    rw [ho]
    exact findPrev_hit h c fuel a hrest.1
  | cons x xs2 ih =>
    intro o fuel hl hnd hfuel
    rw [List.cons_append, isChainB_cons] at hl
    obtain ⟨ho, hrest⟩ := hl
    have hcm : c ∈ xs2 ++ a :: c :: ys :=
      List.mem_append_right _ (List.mem_cons_of_mem _ (List.mem_cons_self c ys))
    have hxc : (h x).next_page ≠ some c := by
      intro hxc
      rw [List.cons_append, List.nodup_cons] at hnd
      cases xs2 with
      | nil =>
        rw [List.nil_append, isChainB_cons] at hrest
        rw [hrest.1] at hxc
        have hac : a = c := by injection hxc
        have hnd2 := hnd.2
        rw [List.nil_append, List.nodup_cons] at hnd2
        exact hnd2.1 (hac ▸ List.mem_cons_self c ys)
      | cons z w =>
        rw [List.cons_append, isChainB_cons] at hrest
        rw [hrest.1] at hxc
        have hzc : z = c := by injection hxc
        have hnd2 := hnd.2
        rw [List.cons_append, List.nodup_cons] at hnd2
        apply hnd2.1
        rw [hzc]
        exact List.mem_append_right _ (List.mem_cons_of_mem _ (List.mem_cons_self c ys))
    cases fuel with
    | zero => simp at hfuel
    | succ fuel2 =>
      rw [ho, findPrev_step h c fuel2 x hxc]
      refine ih _ fuel2 hrest ?_ (by simp at hfuel; omega)
      rw [List.cons_append, List.nodup_cons] at hnd
      exact hnd.2

theorem remove_chain (h : FontHeap) (a c : Nat) (ys : List Nat) :
    ∀ (xs : List Nat) (o : Option Nat),
      isChainB h o (xs ++ a :: c :: ys) = true →
      (xs ++ a :: c :: ys).Nodup →
      isChainB (updateNext h a (h c).next_page) o (xs ++ a :: ys) = true := by
  intro xs
  induction xs with
  | nil =>
    intro o hl hnd
    rw [List.nil_append, isChainB_cons] at hl
    obtain ⟨ho, hrest⟩ := hl
    rw [isChainB_cons] at hrest
    obtain ⟨hac, hys⟩ := hrest
    rw [List.nil_append, isChainB_cons, updateNext_self]
    refine ⟨ho, ?_⟩
    simp only
    refine isChainB_update_outside h a _ _ _ hys ?_
    rw [List.nil_append, List.nodup_cons] at hnd
    exact fun hmem => hnd.1 (List.mem_cons_of_mem _ hmem)
  | cons x xs2 ih =>
    intro o hl hnd
    rw [List.cons_append, isChainB_cons] at hl
    rw [List.cons_append, List.nodup_cons] at hnd
    have hma : a ∈ xs2 ++ a :: c :: ys :=
      List.mem_append_right _ (List.mem_cons_self a (c :: ys))
    have hxa : x ≠ a := by
      intro hxa
      apply hnd.1
      rw [hxa]
      exact hma
    rw [List.cons_append, isChainB_cons, updateNext_ne h a _ x hxa]
    exact ⟨hl.1, ih _ hl.2 hnd.2⟩

theorem findPrev_miss (h : FontHeap) (c : Nat) :
    ∀ (l : List Nat) (o : Option Nat),
      isChainB h o l = true →
      (∀ a ∈ l, (h a).next_page ≠ some c) →
      ∀ fuel, findPrev h c fuel o = none := by
  intro l
  induction l with
  | nil =>
    intro o hl _ fuel
    rw [isChainB_nil] at hl
    rw [hl, findPrev_none_eq]
  | cons a t ih =>
    intro o hl hno fuel
    rw [isChainB_cons] at hl
    have hac : (h a).next_page ≠ some c := hno a (List.mem_cons_self a t)
    cases fuel with
    | zero => rw [hl.1, findPrev_zero h c a hac]
    | succ fuel2 =>
      rw [hl.1, findPrev_step h c fuel2 a hac]
      exact ih _ hl.2 (fun b hb => hno b (List.mem_cons_of_mem _ hb)) fuel2

theorem bpp_eq_find : ∀ (chain : List lv_font_t) (letter : Nat),
    lv_font_get_bpp chain letter =
      ((chain.find? (inRangeB letter)).map lv_font_t.bpp).getD 0 := by
  intro chain letter
  induction chain with
  | nil => rfl
  | cons f chain ih =>
    by_cases h : f.unicode_first ≤ letter ∧ letter ≤ f.unicode_last
    · have hb : inRangeB letter f = true := by
        rw [inRangeB]; simp only [Bool.and_eq_true, decide_eq_true_eq]; exact h
      rw [lv_font_get_bpp, if_pos h, List.find?_cons_of_pos _ hb]
      rfl
    · have hb : inRangeB letter f = false := by
        rw [inRangeB]
        simp only [Bool.and_eq_false_iff, decide_eq_false_iff_not, not_le]
        omega
      rw [lv_font_get_bpp, if_neg h, List.find?_cons_of_neg _ (by simp [hb]), ih]

/-! ## Claims -/

/-- Claim C1: for every font chain in which two tables with overlapping
ranges both define a glyph for code point X, the resolving queries
(`lv_font_get_bitmap`, `lv_font_get_width`, `lv_font_get_real_width`) always
return the result of the table linked earlier in the chain, and the later
table is never consulted once the earlier one answers, regardless of range
widths.  Formalised: if every table of `pre` misses `letter` and `f` hits it
(per-table width `≥ 0`), then the chain results on `pre ++ f :: post` equal
the results of `f` alone, for every `post` — so any later table defining the
same code point, with any range, never influences the result. -/
theorem chain_first_hit_wins (pre : List lv_font_t) (f : lv_font_t)
    (post : List lv_font_t) (letter : Nat)
    (hpre : ∀ g ∈ pre, tableGetWidth g letter < 0)
    (hf : 0 ≤ tableGetWidth f letter) :
    lv_font_get_bitmap (pre ++ f :: post) letter = tableGetBitmap f letter ∧
    lv_font_get_width (pre ++ f :: post) letter = lv_font_get_width [f] letter ∧
    lv_font_get_real_width (pre ++ f :: post) letter =
      lv_font_get_real_width [f] letter := by
  have hfb : tableGetBitmap f letter ≠ none := by
    intro h
    have := (tableGetBitmap_none_iff f letter).mp h
    omega
  refine ⟨?_, ?_, ?_⟩
  · rw [getBitmap_append_miss pre _ letter hpre, lv_font_get_bitmap]
    cases hb : tableGetBitmap f letter with
    | none => exact absurd hb hfb
    | some b => rfl
  · rw [getWidth_append_miss pre _ letter hpre, lv_font_get_width, if_pos hf,
      lv_font_get_width, if_pos hf]
  · rw [getRealWidth_append_miss pre _ letter hpre, lv_font_get_real_width,
      if_pos hf, lv_font_get_real_width, if_pos hf]

/-- Witness for C1: code point 70 on the chain
`[exSparse65, exCont70, exCont70b]`, where both continuous tables define 70
with overlapping ranges: all three queries answer from `exCont70`, the
earlier table. -/
theorem chain_first_hit_wins_witness :
    lv_font_get_bitmap [exSparse65, exCont70, exCont70b] 70 =
      tableGetBitmap exCont70 70 ∧
    lv_font_get_width [exSparse65, exCont70, exCont70b] 70 =
      lv_font_get_width [exCont70] 70 ∧
    lv_font_get_real_width [exSparse65, exCont70, exCont70b] 70 =
      lv_font_get_real_width [exCont70] 70 :=
  chain_first_hit_wins [exSparse65] exCont70 [exCont70b] 70 (by decide) (by decide)

/-- Counterexample to C2 as stated: on the one-table chain `[exSparse65]`
and code point 70 no table yields a hit (the per-table width lookup is
negative and the bitmap lookup null), yet `lv_font_get_width` returns `0` —
not a negative sentinel, which its `uint8_t` return type cannot even carry —
and `lv_font_get_bpp` returns 2, not 0, because 70 lies inside the range of
the sparse table even though that table defines no glyph for it. -/
theorem chain_not_found_claim_counterexample :
    tableGetWidth exSparse65 70 < 0 ∧ tableGetBitmap exSparse65 70 = none ∧
    lv_font_get_width [exSparse65] 70 = 0 ∧
    lv_font_get_real_width [exSparse65] 70 = 0 ∧
    lv_font_get_bpp [exSparse65] 70 = 2 := by decide

/-- Claim C2 (amended): for every chain and code point such that no table
yields a hit, `lv_font_get_bitmap` returns null, `lv_font_get_width` and
`lv_font_get_real_width` return 0 (the chain-level queries return `uint8_t`
and map to 0 on exhaustion; the negative sentinel exists only at the
per-table lookups), and `lv_font_is_monospace` returns false; additionally
`lv_font_get_bpp` returns 0 when no table range contains the code point.  A
NULL chain head is the empty chain, for which the hypotheses hold vacuously,
so it yields the same results. -/
theorem chain_not_found_defaults (chain : List lv_font_t) (letter : Nat)
    (hmiss : ∀ g ∈ chain, tableGetWidth g letter < 0) :
    (lv_font_get_bitmap chain letter = none ∧
     lv_font_get_width chain letter = 0 ∧
     lv_font_get_real_width chain letter = 0 ∧
     lv_font_is_monospace chain letter = false) ∧
    ((∀ g ∈ chain, letter < g.unicode_first ∨ g.unicode_last < letter) →
      lv_font_get_bpp chain letter = 0) := by
  constructor
  · have h1 := getBitmap_append_miss chain [] letter hmiss
    have h2 := getWidth_append_miss chain [] letter hmiss
    have h3 := getRealWidth_append_miss chain [] letter hmiss
    have h4 := isMonospace_append_miss chain [] letter hmiss
    rw [List.append_nil] at h1 h2 h3 h4
    exact ⟨h1, h2, h3, h4⟩
  · intro hout
    induction chain with
    | nil => rfl
    | cons g chain ih =>
      have hg : ¬ (g.unicode_first ≤ letter ∧ letter ≤ g.unicode_last) := by
        have := hout g (List.mem_cons_self g chain); omega
      rw [lv_font_get_bpp, if_neg hg]
      exact ih (fun g hgm => hmiss g (List.mem_cons_of_mem _ hgm))
        (fun g hgm => hout g (List.mem_cons_of_mem _ hgm))

/-- Witness for amended C2: code point 30 is outside the range of every
table of `[exSparse65]`, so every query returns its not-found default. -/
theorem chain_not_found_defaults_witness :
    lv_font_get_bitmap [exSparse65] 30 = none ∧
    lv_font_get_width [exSparse65] 30 = 0 ∧
    lv_font_get_real_width [exSparse65] 30 = 0 ∧
    lv_font_is_monospace [exSparse65] 30 = false ∧
    lv_font_get_bpp [exSparse65] 30 = 0 := by
  obtain ⟨⟨b1, b2, b3, b4⟩, b5⟩ := chain_not_found_defaults [exSparse65] 30 (by decide)
  exact ⟨b1, b2, b3, b4, b5 (by decide)⟩

/-- Claim C3: when the first hit occurs in a table with nonzero monospace
`m` and per-glyph raw width `w`, `lv_font_get_width` returns `m` while
`lv_font_get_real_width` returns `w`; with monospace 0 both return `w`.  The
bounds `w < 256` and `monospace < 256` state that the values fit the
`uint8_t` fields of the C table. -/
theorem monospace_override (pre : List lv_font_t) (f : lv_font_t)
    (post : List lv_font_t) (letter : Nat) (w : Nat)
    (hpre : ∀ g ∈ pre, tableGetWidth g letter < 0)
    (hf : tableGetWidth f letter = (w : Int))
    (hw : w < 256) (hm : f.monospace < 256) :
    lv_font_get_width (pre ++ f :: post) letter =
      (if f.monospace ≠ 0 then f.monospace else w) ∧
    lv_font_get_real_width (pre ++ f :: post) letter = w := by
  have hpos : 0 ≤ tableGetWidth f letter := by rw [hf]; exact Int.natCast_nonneg _
  have hmm : f.monospace % 256 = f.monospace := Nat.mod_eq_of_lt hm
  constructor
  · rw [getWidth_append_miss pre _ letter hpre, lv_font_get_width, if_pos hpos,
      hf, hmm]
    by_cases h0 : f.monospace ≠ 0
    · rw [if_pos h0, if_pos h0]
      exact Nat.mod_eq_of_lt hm
    · rw [if_neg h0, if_neg h0, Int.toNat_natCast]
      exact Nat.mod_eq_of_lt hw
  · rw [getRealWidth_append_miss pre _ letter hpre, lv_font_get_real_width,
      if_pos hpos, hf, Int.toNat_natCast]
    exact Nat.mod_eq_of_lt hw

/-- Witness for C3, the example of the specification: a table with
monospace 12 and raw glyph width 7 gives `get_width = 12` and
`get_real_width = 7`. -/
theorem monospace_override_witness :
    lv_font_get_width [exMono12] 65 = 12 ∧
    lv_font_get_real_width [exMono12] 65 = 7 := by
  obtain ⟨w1, w2⟩ := monospace_override [] exMono12 [] 65 7 (by decide) (by decide)
    (by decide) (by decide)
  simp only [List.nil_append] at w1 w2
  constructor
  · rw [w1]; decide
  · exact w2

/-- Counterexample to C4 as stated: for `ref = 2^31`, `element = 0` the
reference is greater than the element, so standard three-way semantics
require a positive result, but the wrapping `uint32_t` subtraction
reinterpreted as `int32_t` yields a negative value. -/
theorem codeCompare_wraparound_counterexample :
    (0 : Nat) < 2147483648 ∧ lv_font_codeCompare 2147483648 0 < 0 := by decide

/-- Claim C4 (amended): for 32-bit values, `lv_font_codeCompare` returns
zero exactly when `ref = element`; it is negative when `ref < element` and
positive when `ref > element` provided the absolute difference is below
`2^31` — beyond that the unsigned subtraction wraps across the sign bit and
the sign is inverted. -/
theorem codeCompare_three_way (ref element : Nat) (h1 : ref < 4294967296)
    (h2 : element < 4294967296) :
    (lv_font_codeCompare ref element = 0 ↔ ref = element) ∧
    (ref < element → element - ref < 2147483648 →
      lv_font_codeCompare ref element < 0) ∧
    (element < ref → ref - element < 2147483648 →
      0 < lv_font_codeCompare ref element) := by
  refine ⟨?_, ?_, ?_⟩
  · unfold lv_font_codeCompare int32OfBits
    have ha : ref % 4294967296 = ref := Nat.mod_eq_of_lt h1
    have hb : element % 4294967296 = element := Nat.mod_eq_of_lt h2
    rw [ha, hb]
    constructor
    · intro h
      by_cases hc : (ref + (4294967296 - element)) % 4294967296 < 2147483648
      · rw [if_pos hc] at h
        omega
      · rw [if_neg hc] at h
        omega
    · intro h
      subst h
      have : (ref + (4294967296 - ref)) % 4294967296 = 0 := by omega
      rw [this]
      simp
  · intro hlt hdiff
    unfold lv_font_codeCompare int32OfBits
    rw [Nat.mod_eq_of_lt h1, Nat.mod_eq_of_lt h2]
    have hm : (ref + (4294967296 - element)) % 4294967296 =
        4294967296 - (element - ref) := by omega
    rw [hm]
    have hge : ¬ (4294967296 - (element - ref) < 2147483648) := by omega
    rw [if_neg hge]
    omega
  · intro hlt hdiff
    unfold lv_font_codeCompare int32OfBits
    rw [Nat.mod_eq_of_lt h1, Nat.mod_eq_of_lt h2]
    have hm : (ref + (4294967296 - element)) % 4294967296 = ref - element := by
      omega
    rw [hm]
    have hsm : ref - element < 2147483648 := by omega
    rw [if_pos hsm]
    omega

/-- Witness for amended C4 at small concrete values: equal inputs compare
zero, 5 precedes 9, and 9 follows 5. -/
theorem codeCompare_three_way_witness :
    (lv_font_codeCompare 5 5 = 0) ∧ (lv_font_codeCompare 5 9 < 0) ∧
    (0 < lv_font_codeCompare 9 5) := by
  refine ⟨?_, ?_, ?_⟩
  · exact (codeCompare_three_way 5 5 (by decide) (by decide)).1.mpr rfl
  · exact (codeCompare_three_way 5 9 (by decide) (by decide)).2.1 (by decide)
      (by decide)
  · exact (codeCompare_three_way 9 5 (by decide) (by decide)).2.2 (by decide)
      (by decide)

/-- Counterexample to C5 as stated: `exSparseWrap` has a strictly ascending,
index-aligned `unicode_list` with the declared glyph count, and code point 0
lies in range and equals `unicode_list[0]`, yet both sparse lookups miss:
the first comparison of the binary search wraps (difference above `2^31`)
and sends the search to the wrong half. -/
theorem sparse_wraparound_counterexample :
    List.Pairwise (· < ·) exSparseWrap.unicode_list ∧
    exSparseWrap.glyph_cnt = exSparseWrap.unicode_list.length ∧
    exSparseWrap.glyph_dsc.length = exSparseWrap.unicode_list.length ∧
    exSparseWrap.unicode_first ≤ 0 ∧ (0 : Nat) ≤ exSparseWrap.unicode_last ∧
    exSparseWrap.unicode_list.getD 0 0 = 0 ∧
    lv_font_get_width_sparse exSparseWrap 0 = -1 ∧
    lv_font_get_bitmap_sparse exSparseWrap 0 = none := by decide

/-- Claim C5 (amended): for every sparse table whose `unicode_list` is
strictly ascending, index-aligned with `glyph_dsc`, and — the amendment —
whose entries and the queried code point are below `2^31` (so the comparator
subtraction cannot wrap; every real Unicode table satisfies this): a code
point outside `[unicode_first, unicode_last]` misses without searching; one
equal to `unicode_list[i]` hits descriptor `i`, returning its `w_px` and
`glyph_bitmap + glyph_index`; one in range but absent from the list misses. -/
theorem sparse_lookup_correct (font : lv_font_t) (letter : Nat)
    (hsort : List.Pairwise (· < ·) font.unicode_list)
    (hcnt : font.glyph_cnt = font.unicode_list.length)
    (halign : font.glyph_dsc.length = font.unicode_list.length)
    (hbound : ∀ u ∈ font.unicode_list, u < 2147483648)
    (hletter : letter < 2147483648) :
    ((letter < font.unicode_first ∨ font.unicode_last < letter) →
       lv_font_get_width_sparse font letter = -1 ∧
       lv_font_get_bitmap_sparse font letter = none) ∧
    (font.unicode_first ≤ letter → letter ≤ font.unicode_last →
       (∀ i, i < font.unicode_list.length → font.unicode_list.getD i 0 = letter →
          i < font.glyph_dsc.length ∧
          lv_font_get_width_sparse font letter =
            ((font.glyph_dsc.getD i ⟨0, 0⟩).w_px : Int) ∧
          lv_font_get_bitmap_sparse font letter =
            some (font.glyph_bitmap + (font.glyph_dsc.getD i ⟨0, 0⟩).glyph_index)) ∧
       (letter ∉ font.unicode_list →
          lv_font_get_width_sparse font letter = -1 ∧
          lv_font_get_bitmap_sparse font letter = none)) := by
  have hcmp : ∀ i, i < font.unicode_list.length →
      (lv_font_codeCompare letter (font.unicode_list.getD i 0) = 0 ↔
        letter = font.unicode_list.getD i 0) ∧
      (lv_font_codeCompare letter (font.unicode_list.getD i 0) < 0 ↔
        letter < font.unicode_list.getD i 0) := by
    intro i hi
    have hmem : font.unicode_list.getD i 0 ∈ font.unicode_list := by
      rw [List.getD_eq_getElem _ _ hi]; exact List.getElem_mem _
    have hb := hbound _ hmem
    rw [codeCompare_small letter _ hletter hb]
    constructor
    · constructor <;> intro h <;> omega
    · constructor <;> intro h <;> omega
  have hsorted : ∀ i j, i < j → j < font.unicode_list.length →
      font.unicode_list.getD i 0 < font.unicode_list.getD j 0 := by
    intro i j hij hj
    have hi : i < font.unicode_list.length := by omega
    rw [List.getD_eq_getElem _ _ hi, List.getD_eq_getElem _ _ hj]
    exact List.pairwise_iff_get.mp hsort ⟨i, hi⟩ ⟨j, hj⟩ hij
  refine ⟨?_, fun h1 h2 => ⟨?_, ?_⟩⟩
  · intro hout
    rw [lv_font_get_width_sparse, if_pos hout, lv_font_get_bitmap_sparse,
      if_pos hout]
    exact ⟨rfl, rfl⟩
  · intro i hi hkey
    have hnin : ¬ (letter < font.unicode_first ∨ font.unicode_last < letter) := by
      omega
    have hb : lv_bsearch letter font.unicode_list font.glyph_cnt
        lv_font_codeCompare = some i := by
      rw [hcnt]
      exact lv_bsearch_eq_some letter font.unicode_list lv_font_codeCompare hcmp
        hsorted i hi hkey
    rw [lv_font_get_width_sparse, if_neg hnin, hb, lv_font_get_bitmap_sparse,
      if_neg hnin, hb]
    exact ⟨by omega, rfl, rfl⟩
  · intro hmem
    have hnin : ¬ (letter < font.unicode_first ∨ font.unicode_last < letter) := by
      omega
    have hb : lv_bsearch letter font.unicode_list font.glyph_cnt
        lv_font_codeCompare = none := by
      rw [hcnt]
      exact lv_bsearch_eq_none letter font.unicode_list lv_font_codeCompare hcmp
        hmem
    rw [lv_font_get_width_sparse, if_neg hnin, hb, lv_font_get_bitmap_sparse,
      if_neg hnin, hb]
    exact ⟨rfl, rfl⟩

/-- Witness for amended C5, the example of the specification: on
`unicode_list = [65, 90, 200]`, code point 90 hits the second descriptor
(width 8, bitmap offset 10), 66 misses inside the range, 64 misses below it. -/
theorem sparse_lookup_correct_witness :
    lv_font_get_width_sparse exSparse3 90 = 8 ∧
    lv_font_get_bitmap_sparse exSparse3 90 = some 1010 ∧
    lv_font_get_width_sparse exSparse3 66 = -1 ∧
    lv_font_get_width_sparse exSparse3 64 = -1 := by
  refine ⟨?_, ?_, ?_, ?_⟩
  · have h := ((sparse_lookup_correct exSparse3 90 (by decide) (by decide)
      (by decide) (by decide) (by decide)).2 (by decide) (by decide)).1 1
      (by decide) (by decide)
    rw [h.2.1]; decide
  · have h := ((sparse_lookup_correct exSparse3 90 (by decide) (by decide)
      (by decide) (by decide) (by decide)).2 (by decide) (by decide)).1 1
      (by decide) (by decide)
    rw [h.2.2]; decide
  · exact (((sparse_lookup_correct exSparse3 66 (by decide) (by decide)
      (by decide) (by decide) (by decide)).2 (by decide) (by decide)).2
      (by decide)).1
  · exact ((sparse_lookup_correct exSparse3 64 (by decide) (by decide)
      (by decide) (by decide) (by decide)).1 (by decide)).1

/-- Claim C6: for a continuous table whose `glyph_dsc` has exactly
`unicode_last - unicode_first + 1` entries, every in-range code point maps
to descriptor `code_point - unicode_first` (width `w_px`, bitmap
`glyph_bitmap + glyph_index`), and every out-of-range code point misses
(`-1` / null). -/
theorem continuous_lookup_correct (font : lv_font_t) (letter : Nat)
    (hlen : font.glyph_dsc.length = font.unicode_last - font.unicode_first + 1) :
    (font.unicode_first ≤ letter → letter ≤ font.unicode_last →
      letter - font.unicode_first < font.glyph_dsc.length ∧
      lv_font_get_width_continuous font letter =
        ((font.glyph_dsc.getD (letter - font.unicode_first) ⟨0, 0⟩).w_px : Int) ∧
      lv_font_get_bitmap_continuous font letter =
        some (font.glyph_bitmap +
          (font.glyph_dsc.getD (letter - font.unicode_first) ⟨0, 0⟩).glyph_index)) ∧
    ((letter < font.unicode_first ∨ font.unicode_last < letter) →
      lv_font_get_width_continuous font letter = -1 ∧
      lv_font_get_bitmap_continuous font letter = none) := by
  constructor
  · intro h1 h2
    have hni : ¬ (letter < font.unicode_first ∨ font.unicode_last < letter) := by
      omega
    refine ⟨by omega, ?_, ?_⟩
    · rw [lv_font_get_width_continuous, if_neg hni]
    · rw [lv_font_get_bitmap_continuous, if_neg hni]
  · intro h
    rw [lv_font_get_width_continuous, if_pos h, lv_font_get_bitmap_continuous,
      if_pos h]
    exact ⟨rfl, rfl⟩

/-- Witness for C6 on the table over `[10, 12]`: code point 11 selects
descriptor 1 (width 4, bitmap `500 + 5`), code point 9 misses. -/
theorem continuous_lookup_correct_witness :
    lv_font_get_width_continuous exCont3 11 = 4 ∧
    lv_font_get_bitmap_continuous exCont3 11 = some 505 ∧
    lv_font_get_width_continuous exCont3 9 = -1 ∧
    lv_font_get_bitmap_continuous exCont3 9 = none := by
  refine ⟨?_, ?_, ?_, ?_⟩
  · have h := ((continuous_lookup_correct exCont3 11 (by decide)).1 (by decide)
      (by decide)).2.1
    rw [h]; decide
  · have h := ((continuous_lookup_correct exCont3 11 (by decide)).1 (by decide)
      (by decide)).2.2
    rw [h]; decide
  · exact ((continuous_lookup_correct exCont3 9 (by decide)).2 (by decide)).1
  · exact ((continuous_lookup_correct exCont3 9 (by decide)).2 (by decide)).2

/-- Claim C7: `lv_font_add` is a no-op on a NULL parent; otherwise, on an
acyclic NULL-terminated chain, it relinks exactly the tail node (the one
with `next_page = NULL`) to the child, so the child is appended at the tail
— the resulting chain is `l ++ [c]`, still headed by the parent — and no
other node changes.  The fuel bound `l.length ≤ fuel + 1` expresses that the
walk terminates within the chain length. -/
theorem add_appends_at_tail :
    (∀ (h : FontHeap) (child : Option Nat) (fuel : Nat),
      lv_font_add h child none fuel = some h) ∧
    (∀ (h : FontHeap) (p : Nat) (l : List Nat) (c : Nat) (fuel : Nat),
      isChainB h (some p) l = true → l.length ≤ fuel + 1 →
      (h c).next_page = none → c ∉ l →
      lv_font_add h (some c) (some p) fuel =
        some (updateNext h (lastOf l) (some c)) ∧
      (h (lastOf l)).next_page = none ∧
      isChainB (updateNext h (lastOf l) (some c)) (some p) (l ++ [c]) = true ∧
      updateNext h (lastOf l) (some c) (lastOf l) =
        { h (lastOf l) with next_page := some c } ∧
      ∀ d, d ≠ lastOf l → updateNext h (lastOf l) (some c) d = h d) := by
  constructor
  · intro h child fuel; rfl
  · intro h p l c fuel hchain hfuel hc hnm
    obtain ⟨h1, h2, h3⟩ := findTail_chain h c l p fuel hchain hfuel hc hnm
    refine ⟨?_, h1, h3, updateNext_self _ _ _, fun d hd => updateNext_ne _ _ _ _ hd⟩
    rw [lv_font_add, h2]

/-- Witness for C7, the append scenario of the specification: on the chain
`1 -> NULL`, adding node 2 yields `1 -> 2 -> NULL`, and a subsequent add of
node 3 yields `1 -> 2 -> 3 -> NULL`. -/
theorem add_appends_at_tail_witness :
    lv_font_add exHeapA (some 2) (some 1) 3 =
      some (updateNext exHeapA 1 (some 2)) ∧
    isChainB (updateNext exHeapA 1 (some 2)) (some 1) [1, 2] = true ∧
    lv_font_add (updateNext exHeapA 1 (some 2)) (some 3) (some 1) 3 =
      some (updateNext (updateNext exHeapA 1 (some 2)) 2 (some 3)) ∧
    isChainB (updateNext (updateNext exHeapA 1 (some 2)) 2 (some 3)) (some 1)
      [1, 2, 3] = true := by
  obtain ⟨e1, _, c1, _, _⟩ :=
    add_appends_at_tail.2 exHeapA 1 [1] 2 3 (by decide) (by decide) (by decide)
      (by decide)
  obtain ⟨e2, _, c2, _, _⟩ :=
    add_appends_at_tail.2 (updateNext exHeapA 1 (some 2)) 1 [1, 2] 3 3 (by decide)
      (by decide) (by decide) (by decide)
  exact ⟨e1, c1, e2, c2⟩

/-- Claim C8: `lv_font_remove` is a no-op when either argument is NULL;
otherwise, when the child is the `next_page` successor of a chain node, it
sets the `next_page` of that predecessor to the `next_page` of the child and
changes nothing else: the chain `xs ++ a :: c :: ys` becomes
`xs ++ a :: ys`, the removed node keeps its own `next_page` (not nulled),
the predecessor keeps its data, and every other node is untouched. -/
theorem remove_splices_predecessor :
    (∀ (h : FontHeap) (child : Option Nat) (fuel : Nat),
      lv_font_remove h child none fuel = some h) ∧
    (∀ (h : FontHeap) (parent : Option Nat) (fuel : Nat),
      lv_font_remove h none parent fuel = some h) ∧
    (∀ (h : FontHeap) (p : Nat) (xs : List Nat) (a c : Nat) (ys : List Nat)
      (fuel : Nat),
      isChainB h (some p) (xs ++ a :: c :: ys) = true →
      xs.length ≤ fuel →
      lv_font_remove h (some c) (some p) fuel =
        some (updateNext h a (h c).next_page) ∧
      isChainB (updateNext h a (h c).next_page) (some p) (xs ++ a :: ys) = true ∧
      updateNext h a (h c).next_page c = h c ∧
      (updateNext h a (h c).next_page a).data = (h a).data ∧
      (updateNext h a (h c).next_page a).next_page = (h c).next_page ∧
      ∀ d, d ≠ a → updateNext h a (h c).next_page d = h d) := by
  refine ⟨fun h child fuel => ?_, fun h parent fuel => ?_, ?_⟩
  · rfl
  · cases parent with
    | none => rfl
    | some p => rfl
  · intro h p xs a c ys fuel hchain hfuel
    have hnd := isChainB_nodup h _ _ hchain
    have hfp := findPrev_chain h a c ys xs (some p) fuel hchain hnd hfuel
    have hca : c ≠ a := by
      have hnd2 : (a :: c :: ys).Nodup := hnd.of_append_right
      rw [List.nodup_cons] at hnd2
      exact fun hca => hnd2.1 (hca ▸ List.mem_cons_self c ys)
    refine ⟨?_, remove_chain h a c ys xs _ hchain hnd,
      updateNext_ne _ _ _ _ hca, ?_, ?_, fun d hd => updateNext_ne _ _ _ _ hd⟩
    · rw [lv_font_remove, hfp]
    · rw [updateNext_self]
    · rw [updateNext_self]

/-- Witness for C8, the splice scenario of the specification: on the chain
`1 -> 2 -> 3`, removing node 2 yields `1 -> 3`, and node 2 itself is left
entirely unchanged (its `next_page` still points at 3). -/
theorem remove_splices_predecessor_witness :
    lv_font_remove exHeap3 (some 2) (some 1) 0 =
      some (updateNext exHeap3 1 (exHeap3 2).next_page) ∧
    isChainB (updateNext exHeap3 1 (exHeap3 2).next_page) (some 1) [1, 3] = true ∧
    updateNext exHeap3 1 (exHeap3 2).next_page 2 = exHeap3 2 := by
  obtain ⟨e1, e2, e3, _⟩ :=
    remove_splices_predecessor.2.2 exHeap3 1 [] 1 2 [3] 0 (by decide) (by decide)
  exact ⟨e1, e2, e3⟩

/-- Claim C9: `lv_font_get_bpp` returns the bpp of the first table in chain
order whose inclusive range contains the code point, independent of glyph
presence — formalised as a `List.find?` over range containment alone — and
on the concrete overlapping chain `[exSparse65, exCont70]` at code point 70
it reports the bpp of `exSparse65` (which has no glyph for 70) while
`lv_font_get_bitmap` answers from `exCont70`, a different table with a
different bpp. -/
theorem bpp_by_range_containment :
    (∀ (chain : List lv_font_t) (letter : Nat),
      lv_font_get_bpp chain letter =
        ((chain.find? (inRangeB letter)).map lv_font_t.bpp).getD 0) ∧
    (lv_font_get_bpp [exSparse65, exCont70] 70 = exSparse65.bpp ∧
     tableGetBitmap exSparse65 70 = none ∧
     lv_font_get_bitmap [exSparse65, exCont70] 70 = tableGetBitmap exCont70 70 ∧
     exSparse65.bpp ≠ exCont70.bpp) := by
  constructor
  · exact bpp_eq_find
  · exact ⟨by decide, by decide, by decide, by decide⟩

/-- Claim C10: with nontermination modelled by fuel — a walk that returns a
result for no fuel value never terminates — `lv_font_remove` on a child that
is not the `next_page` successor of any node of the (acyclic,
NULL-terminated) parent chain finds no predecessor and produces no result
for any fuel, while on a child that is such a successor the walk succeeds
with fuel equal to the chain length. -/
theorem remove_traversal_termination :
    (∀ (h : FontHeap) (p : Nat) (l : List Nat) (c : Nat),
      isChainB h (some p) l = true →
      (∀ a ∈ l, (h a).next_page ≠ some c) →
      ∀ fuel, findPrev h c fuel (some p) = none ∧
        lv_font_remove h (some c) (some p) fuel = none) ∧
    (∀ (h : FontHeap) (p : Nat) (xs : List Nat) (a c : Nat) (ys : List Nat)
      (fuel : Nat),
      isChainB h (some p) (xs ++ a :: c :: ys) = true →
      (xs ++ a :: c :: ys).length ≤ fuel →
      findPrev h c fuel (some p) = some a) := by
  constructor
  · intro h p l c hchain hno fuel
    have hfp := findPrev_miss h c l (some p) hchain hno fuel
    refine ⟨hfp, ?_⟩
    rw [lv_font_remove, hfp]
  · intro h p xs a c ys fuel hchain hfuel
    have hnd := isChainB_nodup h _ _ hchain
    refine findPrev_chain h a c ys xs (some p) fuel hchain hnd ?_
    simp at hfuel ⊢
    omega

/-- Witness for C10 on the chain `1 -> 2 -> 3`: node 99
is not the successor of any node, so the predecessor walk yields nothing at
fuel 5 (and at every fuel, by the theorem), while removing node 3, the
successor of node 2, finds its predecessor within chain-length fuel. -/
theorem remove_traversal_termination_witness :
    (findPrev exHeap3 99 5 (some 1) = none ∧
      lv_font_remove exHeap3 (some 99) (some 1) 5 = none) ∧
    findPrev exHeap3 3 3 (some 1) = some 2 := by
  constructor
  · exact remove_traversal_termination.1 exHeap3 1 [1, 2, 3] 99 (by decide)
      (by decide) 5
  · exact remove_traversal_termination.2 exHeap3 1 [1] 2 3 [] 3 (by decide)
      (by decide)
